import Mathlib

/-!
Verification of the contextual retrieval and session-memory core
(`document_handler.py`, `smart_document_handler.py`, `memory_manager.py`,
`config.py`) against its natural-language specification.

Strings on which the Python code performs index arithmetic, slicing and
substring scanning are embedded as `List Char`; identifiers that are only
compared for equality stay `String`.  Python dictionaries are embedded as
insertion-ordered association lists (`List (String × β)`): assignment
updates in place or appends, exactly like CPython dicts.
-/

set_option autoImplicit false

namespace N8n

/-! ### Python string primitives -/

/-- `s.lower()`.  `Char.toLower` matches Python for the ASCII range used in
concrete inputs below. -/
def lower (s : List Char) : List Char := s.map Char.toLower

/-- Does `s` start with `pat`? (helper for the `in`/`find`/`count` methods). -/
def leadsWith : List Char → List Char → Bool
  | [], _ => true
  | _ :: _, [] => false
  | a :: as, b :: bs => a == b && leadsWith as bs

/-- Python `pat in s` (substring test; the empty pattern matches anything). -/
def pyIn (pat : List Char) : List Char → Bool
  | [] => leadsWith pat []
  | c :: t => leadsWith pat (c :: t) || pyIn pat t

/-- Python `s.find(pat)` restricted to the found case: index of the first
occurrence of `pat` in `s`, if any. -/
def pyFind (pat : List Char) : List Char → Option Nat
  | [] => if leadsWith pat [] then some 0 else none
  | c :: t => if leadsWith pat (c :: t) then some 0 else (pyFind pat t).map (· + 1)

/-- Worker for `pyCountNE`: scan left to right; `skip > 0` means we are
inside a counted occurrence and must pass over `skip` more characters
before matching again (this realizes Python's non-overlapping scan with
structural recursion). -/
def pyCountGo (pat : List Char) : List Char → Nat → Nat
  | [], _ => 0
  | _ :: t, skip + 1 => pyCountGo pat t skip
  | c :: t, 0 =>
    if leadsWith pat (c :: t) then 1 + pyCountGo pat t (pat.length - 1)
    else pyCountGo pat t 0

/-- Python `s.count(pat)` for a non-empty `pat`: number of non-overlapping
occurrences, scanning left to right. -/
def pyCountNE (pat s : List Char) : Nat := pyCountGo pat s 0

/-- Python `s.count(pat)` (`"".count` oddity included: `s.count("") = len(s)+1`). -/
def pyCount (pat s : List Char) : Nat :=
  if pat.isEmpty then s.length + 1 else pyCountNE pat s

/-- Python `s.strip()` (whitespace trimmed from both ends). -/
def pyStrip (s : List Char) : List Char :=
  ((s.dropWhile Char.isWhitespace).reverse.dropWhile Char.isWhitespace).reverse

/-- Python `lst[-n:]` (note `lst[-0:]` is the whole list, not the empty one). -/
def pyLastSlice {α : Type _} (n : Nat) (l : List α) : List α :=
  if n = 0 then l else l.drop (l.length - n)

/-! ### Insertion-ordered dictionaries (`memory`, `conversation_context`, …) -/

/-- `d[k]`, as an option (`None` when the key is absent). -/
def aget {β : Type _} (k : String) : List (String × β) → Option β
  | [] => none
  | (k', v) :: t => if k' = k then some v else aget k t

/-- `d[k] = v`: overwrite in place when present, append when absent
(CPython dict assignment keeps insertion order). -/
def aset {β : Type _} (k : String) (v : β) : List (String × β) → List (String × β)
  | [] => [(k, v)]
  | (k', v') :: t => if k' = k then (k, v) :: t else (k', v') :: aset k v t

/-- `del d[k]` (removes the first binding; dictionaries hold at most one). -/
def adel {β : Type _} (k : String) : List (String × β) → List (String × β)
  | [] => []
  | (k', v') :: t => if k' = k then t else (k', v') :: adel k t

/-! ### Corpus Store (`DocumentHandler`, `document_handler.py`) -/

/-- One entry of `DocumentHandler.documents`: key of the dict (`document`),
plus the `filename`, `type` and `content` fields consulted by search. -/
structure Doc where
  name : String
  filename : String
  dtype : String
  content : List Char
deriving DecidableEq

/-- One element of the list built by `search_in_documents`. -/
structure Hit where
  document : String
  filename : String
  dtype : String
  snippet : List Char
  relevance : Nat
deriving DecidableEq

/-- `content[max(0, index-200) : min(len(content), index+200)].strip()`. -/
def snippetOf (content : List Char) (index : Nat) : List Char :=
  pyStrip ((content.take (min content.length (index + 200))).drop (index - 200))

/-- The `results` list of `search_in_documents` before sorting and slicing:
one hit per document whose lowercased content contains the lowercased query,
in dictionary (= insertion) order. -/
def matchingHits (docs : List Doc) (query : List Char) : List Hit :=
  docs.filterMap fun d =>
    let ql := lower query
    let cl := lower d.content
    if pyIn ql cl then
      some { document := d.name, filename := d.filename, dtype := d.dtype,
             snippet := snippetOf d.content ((pyFind ql cl).getD 0),
             relevance := pyCount ql cl }
    else none

/-- Insert a hit into a relevance-descending list, before the first hit of
smaller-or-equal relevance (this is where a stable sort puts the head
element relative to an already-sorted tail). -/
def insertDesc (x : Hit) : List Hit → List Hit
  | [] => [x]
  | y :: ys => if y.relevance ≤ x.relevance then x :: y :: ys else y :: insertDesc x ys

/-- `results.sort(key=lambda x: x['relevance'], reverse=True)`: CPython's
sort is stable, and a stable relevance-descending sort is unique, so this
stable insertion sort is its embedding. -/
def sortDesc : List Hit → List Hit
  | [] => []
  | x :: xs => insertDesc x (sortDesc xs)

/-- `DocumentHandler.search_in_documents(query, limit)`. -/
def searchInDocuments (docs : List Doc) (query : List Char) (limit : Nat) : List Hit :=
  (sortDesc (matchingHits docs query)).take limit

/-- One entry of `DocumentHandler.products_cache`, as returned by
`search_products`: `pid` is the value of the `'id'` key of the returned
dict and `body` the `json.dumps(product_data, ensure_ascii=False)` text
that the substring match runs over. -/
structure Product where
  pid : String
  body : List Char
deriving DecidableEq

/-- The `for`-loop of `search_products`: append on match, `break` once
`len(results) >= limit` (the break test runs after every iteration, whether
or not it appended). -/
def searchProductsGo (ql : List Char) (limit : Nat) : List Product → List Product → List Product
  | [], acc => acc
  | p :: rest, acc =>
    let acc2 := if pyIn ql (lower p.body) then acc ++ [p] else acc
    if limit ≤ acc2.length then acc2 else searchProductsGo ql limit rest acc2

/-- `DocumentHandler.search_products(query, limit)`. -/
def searchProducts (cache : List Product) (query : List Char) (limit : Nat) : List Product :=
  searchProductsGo (lower query) limit cache []

/-! ### Query Expander (`SmartDocumentHandler`, `smart_document_handler.py`) -/

/-- The stop-word set of `_simple_keyword_extraction`. -/
def stopWords : List (List Char) :=
  ["là", "gì", "như", "thế", "nào", "được", "không", "có", "của", "thì"].map String.toList

/-- Worker for `splitWs`; `cur` holds the current word, reversed. -/
def splitWsGo (cur : List Char) : List Char → List (List Char)
  | [] => if cur.isEmpty then [] else [cur.reverse]
  | c :: t =>
    if c.isWhitespace then
      if cur.isEmpty then splitWsGo [] t else cur.reverse :: splitWsGo [] t
    else splitWsGo (c :: cur) t

/-- Python `text.split()`: split on whitespace runs, no empty words. -/
def splitWs (s : List Char) : List (List Char) :=
  splitWsGo [] s

/-- Worker for `dedupFirst`: keep an element iff it was not seen yet. -/
def dedupFirstGo (seen : List (List Char)) : List (List Char) → List (List Char)
  | [] => []
  | x :: xs =>
    if seen.contains x then dedupFirstGo seen xs
    else x :: dedupFirstGo (seen ++ [x]) xs

/-- First-occurrence deduplication.  The source uses `list(set(queries))`,
whose order is unspecified (hash order); every claim proved below is
insensitive to the order, so the first-occurrence order stands in for it. -/
def dedupFirst (l : List (List Char)) : List (List Char) :=
  dedupFirstGo [] l

/-- `SmartDocumentHandler._simple_keyword_extraction(text)`. -/
def simpleKeywordExtraction (text : List Char) : List (List Char) :=
  let words := splitWs (lower text)
  let keywords := words.filter fun w => !stopWords.contains w && decide (2 < w.length)
  let queries :=
    (if keywords.length ≤ 3 then [List.intercalate [' '] keywords] else [])
      ++ keywords.take 3
      ++ (keywords.zip keywords.tail).map (fun p => p.1 ++ [' '] ++ p.2)
  (dedupFirst queries).take 5

/-- Per-session topic context (`conversation_context[session_id]`). -/
structure TopicCtx where
  topic : Option String
  entities : List String
deriving DecidableEq

/-- Outcome of the completion call plus the JSON post-processing of
`rewrite_query` (the external `model.generate` and Python's `re`/`json`
libraries are modelled by which path of the handler's own control flow
they select):
* `failure`   — `generate` or `json.loads` raised (caught by the `except`),
* `noJson`    — the `re.search(r'\{.*\}', ...)` found no JSON object,
* `ok mt es qs` — a JSON object was parsed; `mt = data.get('main_topic')`,
  `es = data.get('entities')`, `qs = data.get('search_queries')`
  (`none` encodes an absent key). -/
inductive RewriteOutcome where
  | failure
  | noJson
  | ok (mainTopic : Option String) (entities : Option (List String))
       (searchQueries : Option (List (List Char)))
deriving DecidableEq

/-- `SmartDocumentHandler.rewrite_query(user_input, session_id)`:
returns the query list and the updated `conversation_context`.
`capability = none` models `self.model is None`. -/
def rewriteQuery (capability : Option RewriteOutcome)
    (ctx : List (String × TopicCtx)) (sessionId : Option String)
    (userInput : List Char) : List (List Char) × List (String × TopicCtx) :=
  match capability with
  | none => (simpleKeywordExtraction userInput, ctx)
  | some .failure => (simpleKeywordExtraction userInput, ctx)
  | some .noJson => (simpleKeywordExtraction userInput, ctx)
  | some (.ok mt ents qs) =>
    let ctx' := match sessionId with
      | some sid => if sid = "" then ctx else aset sid ⟨mt, ents.getD []⟩ ctx
      | none => ctx
    (qs.getD [], ctx')

/-- One step of the accumulation of `smart_search`: skip a result whose key
was already seen, otherwise append it and record the key. -/
def dedupStep {α : Type _} (key : α → String) (st : List α × List String) (x : α) :
    List α × List String :=
  if st.2.contains (key x) then st else (st.1 ++ [x], st.2 ++ [key x])

/-- The document half of the gathering loop of `smart_search`
(`seen_docs` is keyed by `doc['filename']`). -/
def gatherDocsRaw (docs : List Doc) (queries : List (List Char)) :
    List Hit × List String :=
  queries.foldl (fun st q => (searchInDocuments docs q 2).foldl (dedupStep (·.filename)) st)
    ([], [])

/-- The product half of the gathering loop of `smart_search`
(`seen_products` is keyed by `prod.get('id', prod.get('name'))`, which is
the `'id'` value of every dict `search_products` returns). -/
def gatherProdsRaw (cache : List Product) (queries : List (List Char)) :
    List Product × List String :=
  queries.foldl (fun st q => (searchProducts cache q 2).foldl (dedupStep (·.pid)) st)
    ([], [])

/-- The `'documents'` component of `SmartDocumentHandler.smart_search`:
gathered hits, re-sorted by relevance descending, first `limit`. -/
def smartSearchDocs (docs : List Doc) (queries : List (List Char)) (limit : Nat) :
    List Hit :=
  (sortDesc (gatherDocsRaw docs queries).1).take limit

/-- The `'products'` component of `SmartDocumentHandler.smart_search`:
gathered products, first `limit` (no re-sort). -/
def smartSearchProds (cache : List Product) (queries : List (List Char)) (limit : Nat) :
    List Product :=
  (gatherProdsRaw cache queries).1.take limit

/-! ### Session Memory (`MemoryManager`, `memory_manager.py`; cap from
`config.py`) -/

namespace Config

/-- `Config.MAX_CONVERSATION_HISTORY` (default value of the env override). -/
def MAX_CONVERSATION_HISTORY : Nat := 30

end Config

/-- One message entry (`{'role': ..., 'content': ..., 'timestamp': ...}`).
Timestamps are an abstract totally-ordered clock, embedded as `Int`
(the code stores `datetime.now().isoformat()` and compares re-parsed
values, which is timestamp order). -/
structure Turn where
  role : String
  content : String
  timestamp : Int
deriving DecidableEq

/-- `memory[session_id]`: channel name → message list. -/
abbrev Session := List (String × List Turn)

/-- `MemoryManager.memory`. -/
abbrev Mgr := List (String × Session)

/-- The channel dict `_ensure_session` installs for a new session. -/
def freshSession : Session :=
  [("phanloai", []), ("create_order", []), ("consulting", [])]

/-- The channel names every session is created with. -/
def knownChannels : List String := ["phanloai", "create_order", "consulting"]

/-- `MemoryManager._ensure_session(session_id)`. -/
def ensureSession (m : Mgr) (sid : String) : Mgr :=
  match aget sid m with
  | some _ => m
  | none => aset sid freshSession m

/-- The channel log of `(sid, ch)`, empty when session or channel is absent
(observation helper for the theorems). -/
def channelLog (m : Mgr) (sid ch : String) : List Turn :=
  ((aget sid m).bind fun s => aget ch s).getD []

/-- `append(entry)` followed by the history-cap truncation of
`add_message` (`lst = lst[-MAX:]` once `len(lst) > MAX`). -/
def appendLog (maxHist : Nat) (log : List Turn) (t : Turn) : List Turn :=
  let l2 := log ++ [t]
  if maxHist < l2.length then pyLastSlice maxHist l2 else l2

/-- `MemoryManager.get_history(session_id, agent)`: the returned history
plus the (possibly session-creating) new store. -/
def getHistory (m : Mgr) (sid agent : String) : List Turn × Mgr :=
  if sid = "" then ([], m)
  else
    match aget sid (ensureSession m sid) with
    | none => ([], ensureSession m sid)
    | some s => ((aget agent s).getD [], ensureSession m sid)

/-- `MemoryManager.add_message(session_id, agent, role, content)`.
`.error ()` is the `KeyError` that `self.memory[session_id][agent]` raises
when `agent` is not a key of the session dict. -/
def addMessage (maxHist : Nat) (m : Mgr) (sid agent role content : String)
    (now : Int) : Except Unit Mgr :=
  if sid = "" then .ok m
  else
    match aget sid (ensureSession m sid) with
    | none => .error ()
    | some s =>
      match aget agent s with
      | none => .error ()
      | some log =>
        .ok (aset sid (aset agent (appendLog maxHist log ⟨role, content, now⟩) s)
              (ensureSession m sid))

/-- `MemoryManager.clear_session(session_id, agent)`: returned boolean and
new store. -/
def clearSession (m : Mgr) (sid : String) (agent : Option String) : Bool × Mgr :=
  match aget sid m with
  | none => (false, m)
  | some s =>
    match agent with
    | some a =>
      -- `if agent:` tests truthiness, so the empty string takes the
      -- whole-session branch exactly like `None`.
      if a = "" then (true, adel sid m)
      else
        match aget a s with
        | some _ => (true, aset sid (aset a [] s) m)
        | none => (false, m)
    | none => (true, adel sid m)

/-- The `most_recent` scan of `cleanup_old_sessions`: maximum over the
channels of the timestamp of the channel's last message (`None`-valued
channels skipped). -/
def mostRecent (s : Session) : Option Int :=
  s.foldl
    (fun acc p =>
      match p.2.getLast? with
      | none => acc
      | some t =>
        match acc with
        | none => some t.timestamp
        | some mr => some (if mr < t.timestamp then t.timestamp else mr))
    none

/-- The deletion test of `cleanup_old_sessions`: `most_recent` is set
(a `datetime` is always truthy) and `current_time - most_recent` exceeds
the threshold (`timedelta(hours=max_age_hours)`, in the same clock unit). -/
def shouldDelete (now maxAge : Int) (s : Session) : Bool :=
  match mostRecent s with
  | none => false
  | some t => decide (maxAge < now - t)

/-- `MemoryManager.cleanup_old_sessions(max_age_hours)`: collects
`sessions_to_delete`, deletes them one by one, returns the new store and
the deleted count (the method's return value). -/
def cleanupOldSessions (m : Mgr) (now maxAge : Int) : Mgr × Nat :=
  let toDelete := (m.filter fun p => shouldDelete now maxAge p.2).map Prod.fst
  (toDelete.foldl (fun acc sid => adel sid acc) m, toDelete.length)

/-- Well-formedness of a session dict: exactly the three built-in channel
keys, in creation order (every reachable session has this shape:
`_ensure_session` creates it so and no operation adds or removes a
channel key). -/
def SessionWF (s : Session) : Prop := s.map Prod.fst = knownChannels

/-- Well-formedness of the store: distinct, non-empty session keys, all
sessions with the built-in channel shape.  Holds for `{}` and is preserved
by every operation. -/
def MgrWF (m : Mgr) : Prop :=
  (m.map Prod.fst).Nodup ∧ "" ∉ m.map Prod.fst ∧ ∀ p ∈ m, SessionWF p.2

instance : DecidablePred SessionWF := fun s => by
  unfold SessionWF; infer_instance

instance (m : Mgr) : Decidable (MgrWF m) := by
  unfold MgrWF; infer_instance

/-- Run a sequence of `add_message` calls for one `(sid, agent)` pair
(a raising call, which cannot occur in the verified configurations,
would leave the store unchanged). -/
def runAppends (maxHist : Nat) (m : Mgr) (sid agent : String) (ts : List Turn) : Mgr :=
  ts.foldl
    (fun acc t =>
      match addMessage maxHist acc sid agent t.role t.content t.timestamp with
      | .ok m' => m'
      | .error _ => acc)
    m

/-! ### Helper lemmas: Python string primitives -/

theorem pyIn_nil_true (s : List Char) : pyIn [] s = true := by
  induction s with
  | nil => rfl
  | cons c t ih => simp [pyIn, leadsWith]

theorem pyCountNE_pos (pat s : List Char) (hpat : pat ≠ [])
    (hin : pyIn pat s = true) : 1 ≤ pyCountNE pat s := by
  rw [pyCountNE]
  induction s with
  | nil =>
    cases pat with
    | nil => exact absurd rfl hpat
    | cons a as => simp [pyIn, leadsWith] at hin
  | cons c t ih =>
    rw [pyIn, Bool.or_eq_true] at hin
    by_cases hpre : leadsWith pat (c :: t) = true
    · rw [show pyCountGo pat (c :: t) 0
          = 1 + pyCountGo pat t (pat.length - 1) by rw [pyCountGo, if_pos hpre]]
      omega
    · rw [show pyCountGo pat (c :: t) 0 = pyCountGo pat t 0 by
          rw [pyCountGo, if_neg hpre]]
      rcases hin with h | h
      · exact absurd h hpre
      · exact ih h

theorem pyCount_pos (pat s : List Char) (hpat : pat ≠ [])
    (hin : pyIn pat s = true) : 1 ≤ pyCount pat s := by
  rw [pyCount, if_neg (by simpa using hpat)]
  exact pyCountNE_pos pat s hpat hin

theorem lower_ne_nil (q : List Char) (h : q ≠ []) : lower q ≠ [] := by
  cases q with
  | nil => exact absurd rfl h
  | cons c t => simp [lower]

/-! ### Helper lemmas: generic lists -/

theorem filter_take_shape {α : Type _} (p : α → Bool) (l : List α) (n : Nat) :
    ∃ m, (l.take n).filter p = (l.filter p).take m := by
  induction l generalizing n with
  | nil => exact ⟨0, by simp⟩
  | cons x t ih =>
    cases n with
    | zero => exact ⟨0, by simp⟩
    | succ n =>
      obtain ⟨m, hm⟩ := ih n
      by_cases hx : p x
      · exact ⟨m + 1, by simp [hx, hm]⟩
      · exact ⟨m, by simp [hx, hm]⟩

/-! ### Helper lemmas: the stable descending sort of `search_in_documents` -/

theorem insertDesc_perm (x : Hit) (l : List Hit) :
    List.Perm (insertDesc x l) (x :: l) := by
  induction l with
  | nil => exact List.Perm.refl _
  | cons y ys ih =>
    rw [insertDesc]
    by_cases h : y.relevance ≤ x.relevance
    · rw [if_pos h]
    · rw [if_neg h]
      exact (ih.cons y).trans (List.Perm.swap x y ys)

theorem sortDesc_perm (l : List Hit) : List.Perm (sortDesc l) l := by
  induction l with
  | nil => exact List.Perm.refl _
  | cons x xs ih => exact (insertDesc_perm x (sortDesc xs)).trans (ih.cons x)

theorem insertDesc_sorted (x : Hit) (l : List Hit)
    (h : l.Pairwise fun a b => b.relevance ≤ a.relevance) :
    (insertDesc x l).Pairwise fun a b => b.relevance ≤ a.relevance := by
  induction l with
  | nil => simp [insertDesc]
  | cons y ys ih =>
    rw [List.pairwise_cons] at h
    rw [insertDesc]
    by_cases hxy : y.relevance ≤ x.relevance
    · rw [if_pos hxy]
      refine List.Pairwise.cons ?_ (List.Pairwise.cons h.1 h.2)
      intro z hz
      rcases List.mem_cons.mp hz with rfl | hz
      · exact hxy
      · exact le_trans (h.1 z hz) hxy
    · rw [if_neg hxy]
      refine List.Pairwise.cons ?_ (ih h.2)
      intro z hz
      rcases List.mem_cons.mp ((insertDesc_perm x ys).mem_iff.mp hz) with rfl | hz'
      · omega
      · exact h.1 z hz'

theorem sortDesc_sorted (l : List Hit) :
    (sortDesc l).Pairwise fun a b => b.relevance ≤ a.relevance := by
  induction l with
  | nil => simp [sortDesc]
  | cons x xs ih => exact insertDesc_sorted x (sortDesc xs) ih

theorem insertDesc_filter_rel (x : Hit) (l : List Hit) (r : Nat) :
    (insertDesc x l).filter (fun h => h.relevance == r)
      = (x :: l).filter (fun h => h.relevance == r) := by
  induction l with
  | nil => rfl
  | cons y ys ih =>
    rw [insertDesc]
    by_cases hxy : y.relevance ≤ x.relevance
    · rw [if_pos hxy]
    · rw [if_neg hxy]
      by_cases hyr : y.relevance = r
      · have hxr : ¬x.relevance = r := by omega
        simp [List.filter_cons, ih, hyr, hxr]
      · by_cases hxr : x.relevance = r
        · simp [List.filter_cons, ih, hyr, hxr]
        · simp [List.filter_cons, ih, hyr, hxr]

theorem sortDesc_filter_rel (l : List Hit) (r : Nat) :
    (sortDesc l).filter (fun h => h.relevance == r)
      = l.filter (fun h => h.relevance == r) := by
  induction l with
  | nil => rfl
  | cons x xs ih =>
    rw [sortDesc, insertDesc_filter_rel]
    by_cases hxr : x.relevance = r
    · simp [List.filter_cons, hxr, ih]
    · simp [List.filter_cons, hxr, ih]

/-! ### Helper lemmas: association lists -/

theorem aget_aset_self {β : Type _} (k : String) (v : β) (l : List (String × β)) :
    aget k (aset k v l) = some v := by
  induction l with
  | nil => simp [aget, aset]
  | cons p t ih =>
    obtain ⟨k', v'⟩ := p
    rw [aset]
    by_cases h : k' = k
    · rw [if_pos h, aget, if_pos rfl]
    · rw [if_neg h, aget, if_neg h, ih]

theorem aget_aset_ne {β : Type _} (k k' : String) (v : β) (l : List (String × β))
    (h : k' ≠ k) : aget k (aset k' v l) = aget k l := by
  induction l with
  | nil => simp [aget, aset, h]
  | cons p t ih =>
    obtain ⟨k0, v0⟩ := p
    rw [aset]
    by_cases h0 : k0 = k'
    · rw [if_pos h0, aget, if_neg h, aget, if_neg (h0 ▸ h)]
    · rw [if_neg h0, aget, aget, ih]

theorem aget_mem {β : Type _} (k : String) (v : β) (l : List (String × β))
    (h : aget k l = some v) : (k, v) ∈ l := by
  induction l with
  | nil => simp [aget] at h
  | cons p t ih =>
    obtain ⟨k0, v0⟩ := p
    rw [aget] at h
    by_cases h0 : k0 = k
    · rw [if_pos h0] at h
      exact List.mem_cons.mpr (Or.inl (by simp_all))
    · rw [if_neg h0] at h
      exact List.mem_cons.mpr (Or.inr (ih h))

theorem aget_eq_none_iff {β : Type _} (k : String) (l : List (String × β)) :
    aget k l = none ↔ k ∉ l.map Prod.fst := by
  induction l with
  | nil => simp [aget]
  | cons p t ih =>
    obtain ⟨k0, v0⟩ := p
    rw [aget]
    by_cases h0 : k0 = k
    · simp [h0]
    · simp [h0, ih, Ne.symm h0]

theorem mem_keys_aget {β : Type _} (k : String) (l : List (String × β))
    (h : k ∈ l.map Prod.fst) : ∃ v, aget k l = some v := by
  cases hv : aget k l with
  | none => exact absurd h ((aget_eq_none_iff k l).mp hv)
  | some v => exact ⟨v, rfl⟩

theorem keys_aset_mem {β : Type _} (k : String) (v : β) (l : List (String × β))
    (h : k ∈ l.map Prod.fst) : (aset k v l).map Prod.fst = l.map Prod.fst := by
  induction l with
  | nil => simp at h
  | cons p t ih =>
    obtain ⟨k0, v0⟩ := p
    rw [aset]
    by_cases h0 : k0 = k
    · rw [if_pos h0]; simp [h0]
    · rw [if_neg h0]
      rw [List.map_cons] at h
      rcases List.mem_cons.mp h with h1 | h1
      · exact absurd h1.symm h0
      · simp [ih h1]

theorem keys_aset_not_mem {β : Type _} (k : String) (v : β) (l : List (String × β))
    (h : k ∉ l.map Prod.fst) : (aset k v l).map Prod.fst = l.map Prod.fst ++ [k] := by
  induction l with
  | nil => simp [aset]
  | cons p t ih =>
    obtain ⟨k0, v0⟩ := p
    rw [aset, List.map_cons] at *
    have h0 : k0 ≠ k := fun e => h (List.mem_cons.mpr (Or.inl e.symm))
    have ht : k ∉ t.map Prod.fst := fun e => h (List.mem_cons.mpr (Or.inr e))
    rw [if_neg h0]
    simp [ih ht]

theorem mem_aset {β : Type _} (k : String) (v : β) (l : List (String × β))
    (p : String × β) (h : p ∈ aset k v l) : p = (k, v) ∨ p ∈ l := by
  induction l with
  | nil => simpa [aset] using h
  | cons q t ih =>
    obtain ⟨k0, v0⟩ := q
    rw [aset] at h
    by_cases h0 : k0 = k
    · rw [if_pos h0] at h
      rcases List.mem_cons.mp h with h1 | h1
      · exact Or.inl h1
      · exact Or.inr (List.mem_cons.mpr (Or.inr h1))
    · rw [if_neg h0] at h
      rcases List.mem_cons.mp h with h1 | h1
      · exact Or.inr (List.mem_cons.mpr (Or.inl h1))
      · rcases ih h1 with h2 | h2
        · exact Or.inl h2
        · exact Or.inr (List.mem_cons.mpr (Or.inr h2))

theorem adel_eq_filter {β : Type _} (k : String) (l : List (String × β))
    (h : (l.map Prod.fst).Nodup) :
    adel k l = l.filter fun p => p.1 != k := by
  induction l with
  | nil => rfl
  | cons q t ih =>
    obtain ⟨k0, v0⟩ := q
    simp only [List.map_cons, List.nodup_cons] at h
    rw [adel]
    by_cases h0 : k0 = k
    · rw [if_pos h0]
      subst h0
      rw [List.filter_cons]
      simp only [bne_self_eq_false, Bool.false_eq_true, if_neg]
      have : ∀ p ∈ t, (p.1 != k0) = true := by
        intro p hp
        have : p.1 ∈ t.map Prod.fst := List.mem_map.mpr ⟨p, hp, rfl⟩
        simp only [bne_iff_ne, ne_eq]
        exact fun e => h.1 (e ▸ this)
      exact ((List.filter_eq_self.mpr this)).symm
    · rw [if_neg h0, List.filter_cons]
      have hb : ((k0, v0).1 != k) = true := by simp [h0]
      rw [if_pos hb, ih h.2]

theorem aget_adel_self {β : Type _} (k : String) (l : List (String × β))
    (h : (l.map Prod.fst).Nodup) : aget k (adel k l) = none := by
  rw [adel_eq_filter k l h, aget_eq_none_iff]
  intro hk
  rcases List.mem_map.mp hk with ⟨p, hp, hpk⟩
  have := (List.mem_filter.mp hp).2
  simp [hpk] at this

/-! ### Helper lemmas: the first-occurrence deduplication of `smart_search` -/

/-- Reference form of the `seen`-key deduplication: keep an element iff its
key is new. -/
def firstWins {α : Type _} (key : α → String) : List String → List α → List α
  | _, [] => []
  | seen, x :: t =>
    if seen.contains (key x) then firstWins key seen t
    else x :: firstWins key (seen ++ [key x]) t

theorem foldl_dedupStep {α : Type _} (key : α → String) (l : List α) :
    ∀ (acc : List α) (seen : List String),
      l.foldl (dedupStep key) (acc, seen)
        = (acc ++ firstWins key seen l, seen ++ (firstWins key seen l).map key) := by
  induction l with
  | nil => intro acc seen; simp [firstWins]
  | cons x t ih =>
    intro acc seen
    rw [List.foldl_cons, dedupStep, firstWins]
    by_cases h : seen.contains (key x)
    · rw [if_pos h, if_pos h]
      exact ih acc seen
    · rw [if_neg h, if_neg h]
      rw [ih (acc ++ [x]) (seen ++ [key x])]
      simp

theorem firstWins_spec {α : Type _} (key : α → String) (l : List α) :
    ∀ (seen : List String) (x : α), x ∈ firstWins key seen l →
      key x ∉ seen ∧ l.find? (fun y => key y == key x) = some x := by
  induction l with
  | nil => intro seen x h; simp [firstWins] at h
  | cons z t ih =>
    intro seen x h
    rw [firstWins] at h
    by_cases hz : seen.contains (key z)
    · rw [if_pos hz] at h
      obtain ⟨hx1, hx2⟩ := ih seen x h
      refine ⟨hx1, ?_⟩
      have hne : (key z == key x) = false := by
        simp only [beq_eq_false_iff_ne, ne_eq]
        intro e
        exact hx1 (e ▸ List.elem_iff.mp hz)
      simp [List.find?_cons, hne, hx2]
    · rw [if_neg hz] at h
      rcases List.mem_cons.mp h with rfl | hx
      · refine ⟨fun hm => hz (List.elem_iff.mpr hm), ?_⟩
        simp [List.find?_cons]
      · obtain ⟨hx1, hx2⟩ := ih (seen ++ [key z]) x hx
        simp only [List.mem_append, List.mem_singleton, not_or] at hx1
        refine ⟨hx1.1, ?_⟩
        have hne : (key z == key x) = false := by
          simp only [beq_eq_false_iff_ne, ne_eq]
          exact fun e => hx1.2 e.symm
        simp [List.find?_cons, hne, hx2]

theorem firstWins_nodup {α : Type _} (key : α → String) (l : List α) :
    ∀ seen : List String, ((firstWins key seen l).map key).Nodup := by
  induction l with
  | nil => intro seen; simp [firstWins]
  | cons z t ih =>
    intro seen
    rw [firstWins]
    by_cases hz : seen.contains (key z)
    · rw [if_pos hz]; exact ih seen
    · rw [if_neg hz]
      rw [List.map_cons, List.nodup_cons]
      refine ⟨?_, ih (seen ++ [key z])⟩
      intro hmem
      rcases List.mem_map.mp hmem with ⟨y, hy, hyk⟩
      have := (firstWins_spec key t (seen ++ [key z]) y hy).1
      simp [hyk] at this

theorem foldl_inner_flatMap {α β : Type _} (f : List Char → List β)
    (g : α → β → α) (qs : List (List Char)) :
    ∀ init : α, qs.foldl (fun st q => (f q).foldl g st) init
      = (qs.flatMap f).foldl g init := by
  induction qs with
  | nil => intro init; simp
  | cons q t ih =>
    intro init
    rw [List.foldl_cons, ih, List.flatMap_cons, List.foldl_append]

/-! ### Helper lemmas: Session Memory -/

theorem freshSession_keys : freshSession.map Prod.fst = knownChannels := rfl

theorem aget_freshSession (ch : String) (h : ch ∈ knownChannels) :
    aget ch freshSession = some [] := by
  simp only [knownChannels, List.mem_cons, List.mem_singleton, List.not_mem_nil, or_false] at h
  rcases h with rfl | rfl | rfl
  · decide
  · decide
  · decide

theorem addMessage_ok (maxHist : Nat) (m : Mgr) (sid ch role content : String)
    (now : Int) (hwf : MgrWF m) (hsid : sid ≠ "") (hch : ch ∈ knownChannels) :
    ∃ m', addMessage maxHist m sid ch role content now = .ok m' ∧ MgrWF m' ∧
      channelLog m' sid ch
        = appendLog maxHist (channelLog m sid ch) ⟨role, content, now⟩ := by
  obtain ⟨hnd, hne, hses⟩ := hwf
  rw [addMessage, if_neg hsid]
  cases hm : aget sid m with
  | some s =>
    have hm1 : ensureSession m sid = m := by rw [ensureSession, hm]
    have hswf : SessionWF s := hses (sid, s) (aget_mem sid s m hm)
    have hchs : ch ∈ s.map Prod.fst := hswf ▸ hch
    obtain ⟨log, hlog⟩ := mem_keys_aget ch s hchs
    have hsidm : sid ∈ m.map Prod.fst :=
      List.mem_map.mpr ⟨(sid, s), aget_mem sid s m hm, rfl⟩
    refine ⟨aset sid (aset ch (appendLog maxHist log ⟨role, content, now⟩) s) m,
      ?_, ?_, ?_⟩
    · rw [hm1, hm]
      simp [hlog]
    · refine ⟨?_, ?_, ?_⟩
      · rw [keys_aset_mem sid _ m hsidm]
        exact hnd
      · rw [keys_aset_mem sid _ m hsidm]
        exact hne
      · intro p hp
        rcases mem_aset _ _ _ _ hp with rfl | hp'
        · show SessionWF (aset ch _ s)
          unfold SessionWF
          rw [keys_aset_mem ch _ s hchs]
          exact hswf
        · exact hses p hp'
    · unfold channelLog
      rw [aget_aset_self, hm]
      simp [aget_aset_self, hlog]
  | none =>
    have hm1 : ensureSession m sid = aset sid freshSession m := by rw [ensureSession, hm]
    have hs1 : aget sid (aset sid freshSession m) = some freshSession := aget_aset_self ..
    have hlog : aget ch freshSession = some [] := aget_freshSession ch hch
    have hsidk : sid ∉ m.map Prod.fst := (aget_eq_none_iff sid m).mp hm
    have hkeys : (aset sid freshSession m).map Prod.fst = m.map Prod.fst ++ [sid] :=
      keys_aset_not_mem sid _ m hsidk
    have hsidm1 : sid ∈ (aset sid freshSession m).map Prod.fst := by rw [hkeys]; simp
    refine ⟨aset sid (aset ch (appendLog maxHist [] ⟨role, content, now⟩) freshSession)
      (aset sid freshSession m), ?_, ?_, ?_⟩
    · rw [hm1, hs1]
      simp [hlog]
    · refine ⟨?_, ?_, ?_⟩
      · rw [keys_aset_mem sid _ _ hsidm1, hkeys]
        simp [List.nodup_append, hnd, hsidk]
      · rw [keys_aset_mem sid _ _ hsidm1, hkeys]
        simp only [List.mem_append, List.mem_singleton, not_or]
        exact ⟨hne, fun e => hsid e.symm⟩
      · intro p hp
        rcases mem_aset _ _ _ _ hp with rfl | hp'
        · show SessionWF (aset ch _ freshSession)
          unfold SessionWF
          rw [keys_aset_mem ch _ freshSession (freshSession_keys ▸ hch)]
          exact freshSession_keys
        · rcases mem_aset _ _ _ _ hp' with rfl | hp''
          · exact freshSession_keys
          · exact hses p hp''
    · unfold channelLog
      rw [aget_aset_self, hm]
      simp [aget_aset_self]

theorem runAppends_log (maxHist : Nat) (sid ch : String) (ts : List Turn)
    (hsid : sid ≠ "") (hch : ch ∈ knownChannels) :
    ∀ m : Mgr, MgrWF m →
      MgrWF (runAppends maxHist m sid ch ts) ∧
      channelLog (runAppends maxHist m sid ch ts) sid ch
        = ts.foldl (appendLog maxHist) (channelLog m sid ch) := by
  induction ts with
  | nil => intro m hwf; exact ⟨hwf, rfl⟩
  | cons t rest ih =>
    intro m hwf
    obtain ⟨m', hok, hwf', hlog'⟩ :=
      addMessage_ok maxHist m sid ch t.role t.content t.timestamp hwf hsid hch
    have hstep : runAppends maxHist m sid ch (t :: rest)
        = runAppends maxHist m' sid ch rest := by
      rw [runAppends, List.foldl_cons, hok]
      rfl
    obtain ⟨hwf'', hlog''⟩ := ih m' hwf'
    refine ⟨hstep ▸ hwf'', ?_⟩
    rw [hstep, hlog'', hlog', List.foldl_cons]

theorem foldl_appendLog_nil (maxHist : Nat) (hpos : 0 < maxHist) (ts : List Turn) :
    ts.foldl (appendLog maxHist) [] = ts.drop (ts.length - maxHist) := by
  induction ts using List.reverseRecOn with
  | nil => simp
  | append_singleton rest t ih =>
    rw [List.foldl_append, List.foldl_cons, List.foldl_nil, ih]
    have hlen : (rest ++ [t]).length = rest.length + 1 := by simp
    unfold appendLog pyLastSlice
    by_cases hle : rest.length < maxHist
    · rw [show rest.length - maxHist = 0 by omega, List.drop_zero,
        if_neg (by rw [hlen]; omega), show (rest ++ [t]).length - maxHist = 0 by
          rw [hlen]; omega, List.drop_zero]
    · have hdroplen : (rest.drop (rest.length - maxHist)).length = maxHist := by
        rw [List.length_drop]; omega
      have hcond : maxHist < (rest.drop (rest.length - maxHist) ++ [t]).length := by
        rw [List.length_append, hdroplen]; simp
      rw [if_pos hcond, if_neg (by omega)]
      have hlen2 : (rest.drop (rest.length - maxHist) ++ [t]).length - maxHist = 1 := by
        rw [List.length_append, hdroplen]; simp
      rw [hlen2, List.drop_append_of_le_length (by rw [hdroplen]; omega), List.drop_drop,
        List.drop_append_of_le_length (by rw [hlen]; omega)]
      have hAB : rest.length - maxHist + 1 = (rest ++ [t]).length - maxHist := by
        rw [hlen]; omega
      rw [hAB]

theorem foldl_adel_keys {β : Type _} (ks : List String) :
    ∀ l : List (String × β), (l.map Prod.fst).Nodup →
      ks.foldl (fun acc k => adel k acc) l = l.filter fun p => !ks.contains p.1 := by
  induction ks with
  | nil => intro l _; simp [List.filter_eq_self]
  | cons k kt ih =>
    intro l hnd
    rw [List.foldl_cons, adel_eq_filter k l hnd]
    have hnd' : ((l.filter fun p => p.1 != k).map Prod.fst).Nodup := by
      have : List.Sublist (l.filter fun p => p.1 != k) l := List.filter_sublist l
      exact hnd.sublist (this.map Prod.fst)
    rw [ih _ hnd', List.filter_filter]
    apply List.filter_congr
    intro p _
    by_cases h1 : p.1 = k
    · simp [h1]
    · simp [h1]

theorem aget_freshSession_getD (ch : String) :
    ((aget ch freshSession).getD [] : List Turn) = [] := by
  cases h : aget ch freshSession with
  | none => rfl
  | some v =>
    have hv : (ch, v) ∈ freshSession := aget_mem ch v freshSession h
    simp only [freshSession, List.mem_cons, List.mem_singleton, List.not_mem_nil,
      or_false, Prod.mk.injEq] at hv
    rcases hv with ⟨_, rfl⟩ | ⟨_, rfl⟩ | ⟨_, rfl⟩ <;> rfl

theorem nodup_keys_eq {β : Type _} (l : List (String × β))
    (h : (l.map Prod.fst).Nodup) (p q : String × β) (hp : p ∈ l) (hq : q ∈ l)
    (he : p.1 = q.1) : p = q := by
  induction l with
  | nil => cases hp
  | cons r t ih =>
    rw [List.map_cons, List.nodup_cons] at h
    rcases List.mem_cons.mp hp with rfl | hp' <;> rcases List.mem_cons.mp hq with rfl | hq'
    · rfl
    · exact absurd (he ▸ List.mem_map.mpr ⟨q, hq', rfl⟩) h.1
    · exact absurd (he ▸ List.mem_map.mpr ⟨p, hp', rfl⟩) h.1
    · exact ih h.2 hp' hq'

/-- Any session cleared of one channel still has empty history everywhere it
was cleared; helper for reading a freshly (re-)created session. -/
theorem getHistory_fresh (m : Mgr) (sid ch : String) (hnone : aget sid m = none) :
    (getHistory m sid ch).1 = [] := by
  by_cases hsid : sid = ""
  · rw [getHistory, if_pos hsid]
  · rw [getHistory, if_neg hsid]
    have h1 : ensureSession m sid = aset sid freshSession m := by rw [ensureSession, hnone]
    rw [h1, aget_aset_self]
    exact aget_freshSession_getD ch

/-! ## Claims about Session Memory -/

/-- C2: for a well-formed store, a non-empty session id, one of the built-in
channels and a positive configured cap `N`, a sequence of `add_message`
calls starting from an empty channel log never leaves more than `N` turns in
the log, and after `N + 1` appends the log holds exactly the newest `N`
turns in order — the first-appended turn has been discarded from the
front. -/
theorem claim_C2_history_cap (maxHist : Nat) (m : Mgr) (sid ch : String)
    (ts : List Turn) (hwf : MgrWF m) (hsid : sid ≠ "") (hch : ch ∈ knownChannels)
    (hpos : 0 < maxHist) (hempty : channelLog m sid ch = []) :
    (∀ k : Nat,
      (channelLog (runAppends maxHist m sid ch (ts.take k)) sid ch).length ≤ maxHist) ∧
    (ts.length = maxHist + 1 →
      channelLog (runAppends maxHist m sid ch ts) sid ch = ts.drop 1) := by
  have hform : ∀ us : List Turn,
      channelLog (runAppends maxHist m sid ch us) sid ch
        = us.drop (us.length - maxHist) := by
    intro us
    rw [(runAppends_log maxHist sid ch us hsid hch m hwf).2, hempty,
      foldl_appendLog_nil maxHist hpos us]
  constructor
  · intro k
    rw [hform (ts.take k), List.length_drop]
    omega
  · intro hlen
    rw [hform ts, hlen]
    congr 1
    omega

/-- C2 witness: cap 2, three appends to the `consulting` channel of a fresh
store leave exactly the last two turns. -/
theorem claim_C2_history_cap_witness :
    (∀ k : Nat, (channelLog (runAppends 2 [] "s" "consulting"
        ([⟨"user", "m1", 0⟩, ⟨"assistant", "m2", 1⟩, ⟨"user", "m3", 2⟩].take k))
        "s" "consulting").length ≤ 2) ∧
    channelLog (runAppends 2 [] "s" "consulting"
        [⟨"user", "m1", 0⟩, ⟨"assistant", "m2", 1⟩, ⟨"user", "m3", 2⟩]) "s" "consulting"
      = [⟨"assistant", "m2", 1⟩, ⟨"user", "m3", 2⟩] := by
  have h := claim_C2_history_cap 2 [] "s" "consulting"
    [⟨"user", "m1", 0⟩, ⟨"assistant", "m2", 1⟩, ⟨"user", "m3", 2⟩]
    (by decide) (by decide) (by decide) (by decide) rfl
  exact ⟨h.1, h.2 rfl⟩

/-- C5 counterexample: a session with no turns at all (all channel logs
empty) is retained by `cleanup_old_sessions` — the code only deletes when
`most_recent` is set — whereas the claim says such a session is deleted. -/
theorem claim_C5_counterexample :
    mostRecent freshSession = none ∧
    (cleanupOldSessions [("s", freshSession)] 1000000 24).1 = [("s", freshSession)] := by
  constructor
  · rfl
  · rfl

/-- C5 (amended): for distinct session keys, `cleanup_old_sessions` deletes
exactly those sessions having at least one turn whose most recent
last-turn timestamp is strictly older than the threshold; sessions with no
turns at all are retained, and the surviving sessions are kept unchanged,
in order. -/
theorem claim_C5_sweep_deletes_idle (m : Mgr) (now maxAge : Int)
    (hnd : (m.map Prod.fst).Nodup) :
    (cleanupOldSessions m now maxAge).1
      = (m.filter fun p => !shouldDelete now maxAge p.2) ∧
    (∀ sid s, (sid, s) ∈ (cleanupOldSessions m now maxAge).1 ↔
      ((sid, s) ∈ m ∧ ¬∃ t, mostRecent s = some t ∧ maxAge < now - t)) := by
  have hmain : (cleanupOldSessions m now maxAge).1
      = (m.filter fun p => !shouldDelete now maxAge p.2) := by
    rw [cleanupOldSessions]
    rw [foldl_adel_keys _ m hnd]
    apply List.filter_congr
    intro p hp
    congr 1
    cases hsd : shouldDelete now maxAge p.2 with
    | true =>
      have : p ∈ m.filter fun q => shouldDelete now maxAge q.2 :=
        List.mem_filter.mpr ⟨hp, hsd⟩
      exact List.elem_iff.mpr (List.mem_map.mpr ⟨p, this, rfl⟩)
    | false =>
      cases hc : List.contains ((m.filter fun q => shouldDelete now maxAge q.2).map Prod.fst) p.1 with
      | false => rfl
      | true =>
        exfalso
        rcases List.mem_map.mp (List.elem_iff.mp hc) with ⟨q, hqf, hq1⟩
        obtain ⟨hqm, hqd⟩ := List.mem_filter.mp hqf
        have : q = p := nodup_keys_eq m hnd q p hqm hp hq1
        rw [this, hsd] at hqd
        cases hqd
  refine ⟨hmain, ?_⟩
  intro sid s
  rw [hmain, List.mem_filter]
  constructor
  · rintro ⟨hm, hb⟩
    refine ⟨hm, ?_⟩
    rintro ⟨t, ht, hage⟩
    rw [shouldDelete] at hb
    simp only [ht] at hb
    simp [hage] at hb
  · rintro ⟨hm, hno⟩
    refine ⟨hm, ?_⟩
    rw [shouldDelete]
    cases ht : mostRecent s with
    | none => rfl
    | some t =>
      have : ¬maxAge < now - t := fun hage => hno ⟨t, ht, hage⟩
      simp [this]

/-- C5 witness: with one stale and one fresh session, the sweep deletes
exactly the stale one. -/
theorem claim_C5_sweep_deletes_idle_witness :
    (cleanupOldSessions
        [("a", [("phanloai", [⟨"user", "x", 0⟩]), ("create_order", []), ("consulting", [])]),
         ("b", [("phanloai", [⟨"user", "y", 90⟩]), ("create_order", []), ("consulting", [])])]
        100 50).1
      = ([("a", [("phanloai", [⟨"user", "x", 0⟩]), ("create_order", []), ("consulting", [])]),
          ("b", [("phanloai", [⟨"user", "y", 90⟩]), ("create_order", []), ("consulting", [])])].filter
          fun p => !shouldDelete 100 50 p.2) ∧
    (∀ sid s, (sid, s) ∈ (cleanupOldSessions
        [("a", [("phanloai", [⟨"user", "x", 0⟩]), ("create_order", []), ("consulting", [])]),
         ("b", [("phanloai", [⟨"user", "y", 90⟩]), ("create_order", []), ("consulting", [])])]
        100 50).1 ↔
      ((sid, s) ∈
        [("a", [("phanloai", [⟨"user", "x", 0⟩]), ("create_order", []), ("consulting", [])]),
         ("b", [("phanloai", [⟨"user", "y", 90⟩]), ("create_order", []), ("consulting", [])])]
        ∧ ¬∃ t, mostRecent s = some t ∧ 50 < 100 - t)) :=
  claim_C5_sweep_deletes_idle
    [("a", [("phanloai", [⟨"user", "x", 0⟩]), ("create_order", []), ("consulting", [])]),
     ("b", [("phanloai", [⟨"user", "y", 90⟩]), ("create_order", []), ("consulting", [])])]
    100 50 (by decide)

/-- C9 counterexample: with a session present, `clear_session` on an
unknown channel name returns `False` even though the session existed —
the claim says the boolean equals prior session existence in both forms. -/
theorem claim_C9_counterexample :
    (aget "s" [("s", freshSession)]).isSome = true ∧
    clearSession [("s", freshSession)] "s" (some "bogus") = (false, [("s", freshSession)]) := by
  constructor
  · rfl
  · rfl

/-- C9 (amended): `clear` with a falsy channel argument (`None` or the
empty string — the code tests `if agent:`) deletes the whole session and
returns exactly prior session existence; `clear` with a truthy (non-empty)
channel name empties that channel's log and returns `true` when the
session has the channel, but returns `false` (leaving the store unchanged)
when the session exists without that channel; after a whole-session clear,
`get_history` on any channel of that session returns the empty
sequence. -/
theorem claim_C9_clear_semantics (m : Mgr) (sid : String) :
    ((clearSession m sid none).1 = (aget sid m).isSome) ∧
    ((clearSession m sid (some "")).1 = (aget sid m).isSome) ∧
    (∀ s, aget sid m = some s → clearSession m sid none = (true, adel sid m)) ∧
    (∀ s, aget sid m = some s → clearSession m sid (some "") = (true, adel sid m)) ∧
    (∀ a s log, a ≠ "" → aget sid m = some s → aget a s = some log →
      clearSession m sid (some a) = (true, aset sid (aset a [] s) m) ∧
      channelLog (aset sid (aset a [] s) m) sid a = []) ∧
    (∀ a s, a ≠ "" → aget sid m = some s → aget a s = none →
      clearSession m sid (some a) = (false, m)) ∧
    ((m.map Prod.fst).Nodup →
      ∀ ch, (getHistory (clearSession m sid none).2 sid ch).1 = []) := by
  refine ⟨?_, ?_, ?_, ?_, ?_, ?_, ?_⟩
  · rw [clearSession]
    cases hm : aget sid m <;> rfl
  · rw [clearSession]
    cases hm : aget sid m with
    | none => rfl
    | some s => simp
  · intro s hs
    rw [clearSession, hs]
  · intro s hs
    rw [clearSession, hs]
    simp
  · intro a s log ha hs hlog
    refine ⟨?_, ?_⟩
    · rw [clearSession, hs]
      simp [ha, hlog]
    · unfold channelLog
      rw [aget_aset_self]
      simp [aget_aset_self]
  · intro a s ha hs hlog
    rw [clearSession, hs]
    simp [ha, hlog]
  · intro hnd ch
    rw [clearSession]
    cases hm : aget sid m with
    | none => exact getHistory_fresh m sid ch hm
    | some s => exact getHistory_fresh (adel sid m) sid ch (aget_adel_self sid m hnd)

/-- C9 witness: clearing the `consulting` channel of an existing session
returns `true` and empties it; clearing with the falsy empty-string
channel deletes the whole session; after a whole-session clear the history
of `phanloai` reads back empty. -/
theorem claim_C9_clear_semantics_witness :
    clearSession [("s", freshSession)] "s" (some "consulting")
      = (true, aset "s" (aset "consulting" [] freshSession) [("s", freshSession)]) ∧
    clearSession [("s", freshSession)] "s" (some "")
      = (true, adel "s" [("s", freshSession)]) ∧
    (getHistory (clearSession [("s", freshSession)] "s" none).2 "s" "phanloai").1 = [] := by
  have h := claim_C9_clear_semantics [("s", freshSession)] "s"
  exact ⟨(h.2.2.2.2.1 "consulting" freshSession [] (by decide) (by decide) (by decide)).1,
    h.2.2.2.1 freshSession (by decide),
    h.2.2.2.2.2.2 (by decide) "phanloai"⟩

/-- C10 counterexample: `add_message` with a fresh session and the unknown
channel name `"bogus"` hits `self.memory[session_id]["bogus"]` and raises
`KeyError` — the claim says no memory operation ever raises, for every
channel name. -/
theorem claim_C10_counterexample :
    addMessage 30 [] "s" "bogus" "user" "hi" 0 = .error () := by
  rfl

/-- C10 (amended): with an empty session id, `get_history` returns the
empty sequence, `add_message` is a no-op and `clear_session` returns
`false`, none of them raising; with a non-empty session id and one of the
built-in channels, `add_message` succeeds by implicit session
auto-creation (`get_history` and `clear_session` are total for every
channel name; only `add_message` on an unknown channel raises). -/
theorem claim_C10_no_raise (maxHist : Nat) (m : Mgr) (sid ch role content : String)
    (now : Int) (a : Option String) (hwf : MgrWF m) :
    (getHistory m "" ch = ([], m)) ∧
    (addMessage maxHist m "" ch role content now = .ok m) ∧
    ((clearSession m "" a).1 = false) ∧
    (sid ≠ "" → ch ∈ knownChannels →
      (addMessage maxHist m sid ch role content now).isOk = true) := by
  refine ⟨?_, ?_, ?_, ?_⟩
  · rw [getHistory, if_pos rfl]
  · rw [addMessage, if_pos rfl]
  · have hnone : aget "" m = none := (aget_eq_none_iff "" m).mpr hwf.2.1
    rw [clearSession, hnone]
  · intro hsid hch
    obtain ⟨m', hok, _, _⟩ := addMessage_ok maxHist m sid ch role content now hwf hsid hch
    rw [hok]
    rfl

/-- C10 witness: on the empty store, the empty-id operations are no-ops and
an append to the `consulting` channel of a new session succeeds. -/
theorem claim_C10_no_raise_witness :
    getHistory ([] : Mgr) "" "consulting" = ([], []) ∧
    (addMessage 30 [] "s" "consulting" "user" "hi" 0).isOk = true := by
  have h := claim_C10_no_raise 30 [] "s" "consulting" "user" "hi" 0 none (by decide)
  exact ⟨h.1, h.2.2.2 (by decide) (by decide)⟩

/-! ## Claims about the Corpus Store and Retrieval Aggregator -/

theorem matchingHits_empty_query_length (docs : List Doc) :
    (matchingHits docs []).length = docs.length := by
  induction docs with
  | nil => rfl
  | cons d t ih =>
    rw [matchingHits, List.filterMap_cons] at *
    simp only [lower, List.map_nil] at *
    rw [if_pos (pyIn_nil_true _)] at *
    simp only [List.length_cons, ih]

theorem searchProductsGo_acc (ql : List Char) (limit : Nat) (l : List Product) :
    ∀ acc : List Product, ∃ ext, searchProductsGo ql limit l acc = acc ++ ext := by
  induction l with
  | nil => intro acc; exact ⟨[], by simp [searchProductsGo]⟩
  | cons p rest ih =>
    intro acc
    rw [searchProductsGo]
    by_cases hm : pyIn ql (lower p.body) = true
    · simp only [hm, if_true]
      by_cases hl : limit ≤ (acc ++ [p]).length
      · exact ⟨[p], by rw [if_pos hl]⟩
      · obtain ⟨ext, hext⟩ := ih (acc ++ [p])
        exact ⟨[p] ++ ext, by rw [if_neg hl, hext, List.append_assoc]⟩
    · simp only [hm, Bool.false_eq_true, if_false]
      by_cases hl : limit ≤ acc.length
      · exact ⟨[], by rw [if_pos hl, List.append_nil]⟩
      · obtain ⟨ext, hext⟩ := ih acc
        exact ⟨ext, by rw [if_neg hl, hext]⟩

/-- C1 counterexample: two documents both contain the non-empty query
`"a"`, but with `limit = 1` only the first is returned — the second
matching entry is dropped by the limit truncation, so "search_text returns
that entry" fails as universally stated. -/
theorem claim_C1_counterexample :
    (['a'] : List Char) ≠ [] ∧
    pyIn (lower ['a']) (lower ['a']) = true ∧
    (⟨"b", "b.txt", "text", ['a']⟩ : Doc) ∈
      [(⟨"a", "a.txt", "text", ['a']⟩ : Doc), ⟨"b", "b.txt", "text", ['a']⟩] ∧
    (∀ h ∈ searchInDocuments
        [(⟨"a", "a.txt", "text", ['a']⟩ : Doc), ⟨"b", "b.txt", "text", ['a']⟩] ['a'] 1,
      h.document ≠ "b") := by
  refine ⟨by decide, by decide, by decide, by decide⟩

/-- C1 (amended): for a non-empty query, `search_in_documents` returns at
most `limit` hits, sorted by relevance descending with ties keeping
insertion order (its output is a truncation-stable reordering of the
match list), and — provided the number of matching entries does not exceed
`limit` — every document whose content contains the query
case-insensitively is returned with relevance equal to the Python
occurrence count of the query in the content, which is at least 1. -/
theorem claim_C1_search_text (docs : List Doc) (q : List Char) (limit : Nat)
    (hq : q ≠ []) :
    (searchInDocuments docs q limit).length ≤ limit ∧
    (searchInDocuments docs q limit).Pairwise (fun a b => b.relevance ≤ a.relevance) ∧
    (∀ r : Nat, ∃ n : Nat,
      (searchInDocuments docs q limit).filter (fun h => h.relevance == r)
        = ((matchingHits docs q).filter (fun h => h.relevance == r)).take n) ∧
    ((matchingHits docs q).length ≤ limit →
      ∀ d ∈ docs, pyIn (lower q) (lower d.content) = true →
        ∃ h ∈ searchInDocuments docs q limit, h.document = d.name ∧
          h.relevance = pyCount (lower q) (lower d.content) ∧ 1 ≤ h.relevance) := by
  refine ⟨?_, ?_, ?_, ?_⟩
  · rw [searchInDocuments]
    simp [List.length_take]
  · exact (sortDesc_sorted (matchingHits docs q)).sublist (List.take_sublist limit _)
  · intro r
    obtain ⟨n, hn⟩ :=
      filter_take_shape (fun h => h.relevance == r) (sortDesc (matchingHits docs q)) limit
    exact ⟨n, by rw [searchInDocuments, hn, sortDesc_filter_rel]⟩
  · intro hlen d hd hin
    have hfull : searchInDocuments docs q limit = sortDesc (matchingHits docs q) := by
      rw [searchInDocuments]
      exact List.take_of_length_le (by rw [(sortDesc_perm _).length_eq]; exact hlen)
    refine ⟨{ document := d.name, filename := d.filename, dtype := d.dtype,
              snippet := snippetOf d.content ((pyFind (lower q) (lower d.content)).getD 0),
              relevance := pyCount (lower q) (lower d.content) }, ?_, rfl, rfl, ?_⟩
    · rw [hfull]
      apply (sortDesc_perm (matchingHits docs q)).mem_iff.mpr
      exact List.mem_filterMap.mpr ⟨d, hd, by simp [hin]⟩
    · exact pyCount_pos (lower q) (lower d.content) (lower_ne_nil q hq) hin

/-- C1 witness: a single document containing `"ab"` twice is returned with
relevance 2 at the head of the result. -/
theorem claim_C1_search_text_witness :
    (searchInDocuments [⟨"d1", "d1.txt", "text", ['a', 'b', ' ', 'a', 'b']⟩]
        ['a', 'b'] 5).length ≤ 5 ∧
    (searchInDocuments [⟨"d1", "d1.txt", "text", ['a', 'b', ' ', 'a', 'b']⟩]
        ['a', 'b'] 5).Pairwise (fun a b => b.relevance ≤ a.relevance) ∧
    (∀ r : Nat, ∃ n : Nat,
      (searchInDocuments [⟨"d1", "d1.txt", "text", ['a', 'b', ' ', 'a', 'b']⟩]
          ['a', 'b'] 5).filter (fun h => h.relevance == r)
        = ((matchingHits [⟨"d1", "d1.txt", "text", ['a', 'b', ' ', 'a', 'b']⟩]
            ['a', 'b']).filter (fun h => h.relevance == r)).take n) ∧
    ((matchingHits [⟨"d1", "d1.txt", "text", ['a', 'b', ' ', 'a', 'b']⟩]
        ['a', 'b']).length ≤ 5 →
      ∀ d ∈ [(⟨"d1", "d1.txt", "text", ['a', 'b', ' ', 'a', 'b']⟩ : Doc)],
        pyIn (lower ['a', 'b']) (lower d.content) = true →
        ∃ h ∈ searchInDocuments [⟨"d1", "d1.txt", "text", ['a', 'b', ' ', 'a', 'b']⟩]
            ['a', 'b'] 5, h.document = d.name ∧
          h.relevance = pyCount (lower ['a', 'b']) (lower d.content) ∧ 1 ≤ h.relevance) :=
  claim_C1_search_text [⟨"d1", "d1.txt", "text", ['a', 'b', ' ', 'a', 'b']⟩]
    ['a', 'b'] 5 (by decide)

/-- C4 counterexample: with a non-empty corpus, the empty query matches
every entry (Python's `"" in s` is `True` for every `s`), so both searches
return non-empty results instead of the empty sequence the claim
promises. -/
theorem claim_C4_counterexample :
    searchInDocuments [⟨"d", "d.txt", "text", ['h', 'i']⟩] [] 5 ≠ [] ∧
    searchProducts [⟨"p", ['h', 'i']⟩] [] 5 ≠ [] := by
  refine ⟨by decide, by decide⟩

/-- C4 (amended): on an empty corpus both searches return the empty
sequence (not an error); but an empty query string is not rejected — it
matches every entry, so `search_in_documents` returns `min limit #docs`
hits and `search_products` returns a non-empty result whenever the product
cache is non-empty. -/
theorem claim_C4_empty_cases (q : List Char) (limit : Nat) :
    (searchInDocuments [] q limit = [] ∧ searchProducts [] q limit = []) ∧
    (∀ docs : List Doc, (searchInDocuments docs [] limit).length
        = min limit docs.length) ∧
    (∀ (p : Product) (rest : List Product), searchProducts (p :: rest) [] limit ≠ []) := by
  refine ⟨⟨?_, rfl⟩, ?_, ?_⟩
  · rw [searchInDocuments, show matchingHits [] q = [] from rfl,
      show sortDesc [] = [] from rfl]
    exact List.take_nil
  · intro docs
    rw [searchInDocuments, List.length_take, (sortDesc_perm _).length_eq,
      matchingHits_empty_query_length]
  · intro p rest
    rw [searchProducts, searchProductsGo]
    have hmatch : pyIn (lower []) (lower p.body) = true := pyIn_nil_true _
    simp only [lower, List.map_nil] at hmatch
    simp only [lower, List.map_nil, hmatch, if_true, List.nil_append]
    by_cases hl : limit ≤ ([p] : List Product).length
    · rw [if_pos hl]
      exact List.cons_ne_nil p []
    · rw [if_neg hl]
      obtain ⟨ext, hext⟩ := searchProductsGo_acc [] limit rest [p]
      rw [hext]
      exact List.cons_ne_nil p ext

/-- C7: the gathering loop of `smart_search` deduplicates by entry
identity on both result collections: in the returned documents no filename
occurs twice and every returned hit is the first hit bearing its filename
in the concatenation of the per-sub-query search results (so the hit from
the earliest matching sub-query is the one kept); likewise for products by
id. -/
theorem claim_C7_gather_dedup (docs : List Doc) (cache : List Product)
    (queries : List (List Char)) (limit : Nat) :
    ((smartSearchDocs docs queries limit).map (fun h => h.filename)).Nodup ∧
    (∀ h ∈ smartSearchDocs docs queries limit,
      (queries.flatMap fun q2 => searchInDocuments docs q2 2).find?
        (fun y => y.filename == h.filename) = some h) ∧
    ((smartSearchProds cache queries limit).map (fun p => p.pid)).Nodup ∧
    (∀ p ∈ smartSearchProds cache queries limit,
      (queries.flatMap fun q2 => searchProducts cache q2 2).find?
        (fun y => y.pid == p.pid) = some p) := by
  have hdocs : (gatherDocsRaw docs queries).1
      = firstWins (fun y : Hit => y.filename) []
          (queries.flatMap fun q2 => searchInDocuments docs q2 2) := by
    rw [gatherDocsRaw, foldl_inner_flatMap, foldl_dedupStep]
    simp
  have hprods : (gatherProdsRaw cache queries).1
      = firstWins (fun y : Product => y.pid) []
          (queries.flatMap fun q2 => searchProducts cache q2 2) := by
    rw [gatherProdsRaw, foldl_inner_flatMap, foldl_dedupStep]
    simp
  refine ⟨?_, ?_, ?_, ?_⟩
  · rw [smartSearchDocs, hdocs, List.map_take]
    refine List.Nodup.sublist (List.take_sublist limit _) ?_
    exact (((sortDesc_perm _).map (fun y : Hit => y.filename)).symm).nodup
      (firstWins_nodup (fun y : Hit => y.filename) _ [])
  · intro h hmem
    rw [smartSearchDocs, hdocs] at hmem
    have hmem2 := (sortDesc_perm _).mem_iff.mp (List.take_subset limit _ hmem)
    exact (firstWins_spec (fun y : Hit => y.filename) _ [] h hmem2).2
  · rw [smartSearchProds, hprods, List.map_take]
    refine List.Nodup.sublist (List.take_sublist limit _) ?_
    exact firstWins_nodup (fun y : Product => y.pid) _ []
  · intro p hmem
    rw [smartSearchProds, hprods] at hmem
    exact (firstWins_spec (fun y : Product => y.pid) _ [] p
      (List.take_subset limit _ hmem)).2

/-! ## Claims about the Query Expander -/

theorem dedupFirst_cons (x : List Char) (xs : List (List Char)) :
    dedupFirst (x :: xs) = x :: dedupFirstGo [x] xs := by
  rw [dedupFirst, dedupFirstGo]
  rfl

theorem simpleKeywordExtraction_length_pos (text : List Char) :
    1 ≤ (simpleKeywordExtraction text).length := by
  rw [simpleKeywordExtraction]
  set keywords := (splitWs (lower text)).filter
    (fun w => !stopWords.contains w && decide (2 < w.length)) with hkw
  have hne : ((if keywords.length ≤ 3 then [List.intercalate [' '] keywords] else [])
      ++ keywords.take 3
      ++ (keywords.zip keywords.tail).map (fun p => p.1 ++ [' '] ++ p.2)) ≠ [] := by
    by_cases hk : keywords.length ≤ 3
    · rw [if_pos hk]
      exact List.cons_ne_nil _ _
    · rw [if_neg hk]
      cases hkl : keywords with
      | nil => rw [hkl] at hk; simp at hk
      | cons a t => simp
  cases hq : ((if keywords.length ≤ 3 then [List.intercalate [' '] keywords] else [])
      ++ keywords.take 3
      ++ (keywords.zip keywords.tail).map (fun p => p.1 ++ [' '] ++ p.2)) with
  | nil => exact absurd hq hne
  | cons y ys =>
    rw [dedupFirst_cons, List.take_succ_cons]
    simp

/-- C3 counterexample: the utterance `"là gì"` is non-empty but consists
solely of stop words, so the rule-based extraction yields no keywords; the
code then returns `[''.join([])] = [""]` — a single **empty** sub-query —
not the original utterance, contradicting both "every returned sub-query
is non-empty" and "the original utterance is returned". -/
theorem claim_C3_counterexample :
    String.toList "là gì" ≠ [] ∧
    rewriteQuery none [] none (String.toList "là gì") = ([[]], []) ∧
    ([[]] : List (List Char)) ≠ [String.toList "là gì"] := by
  refine ⟨by decide, by decide, by decide⟩

/-- C3 (amended): for every input utterance, the expansion returns at
least one sub-query whenever the completion capability is absent or its
call fails or its output holds no JSON (all three land on the rule-based
path, which always produces a non-empty list); however, when the
extraction yields no keywords the single returned element is the empty
string, not the original utterance. -/
theorem claim_C3_expand_nonempty :
    (∀ text : List Char, 1 ≤ (simpleKeywordExtraction text).length) ∧
    (∀ (ctx : List (String × TopicCtx)) (sid : Option String) (inp : List Char),
      (rewriteQuery none ctx sid inp).1 = simpleKeywordExtraction inp ∧
      (rewriteQuery (some .failure) ctx sid inp).1 = simpleKeywordExtraction inp ∧
      (rewriteQuery (some .noJson) ctx sid inp).1 = simpleKeywordExtraction inp ∧
      1 ≤ (rewriteQuery none ctx sid inp).1.length) ∧
    simpleKeywordExtraction (String.toList "là gì") = [[]] := by
  refine ⟨simpleKeywordExtraction_length_pos, ?_, by decide⟩
  intro ctx sid inp
  exact ⟨rfl, rfl, rfl, simpleKeywordExtraction_length_pos inp⟩

/-- C6 counterexample: a completion response that parses to a JSON object
*without* a usable `search_queries` field makes `rewrite_query` return the
empty list (`data.get('search_queries', [])`), not the rule-based fallback
result, which here is non-empty. -/
theorem claim_C6_counterexample :
    (rewriteQuery (some (.ok (some "x") none none)) [] (some "s")
        (String.toList "son mau do")).1 = [] ∧
    simpleKeywordExtraction (String.toList "son mau do") ≠ [] := by
  refine ⟨rfl, by decide⟩

/-- C6 (amended): when the completion capability is absent, when its call
(or the JSON decode) raises, or when the response contains no JSON object,
`rewrite_query` returns exactly the rule-based fallback extraction and
leaves the topic context unchanged, propagating no error; but a parseable
response lacking a `search_queries` field yields the empty list instead of
the fallback. -/
theorem claim_C6_error_fallback (ctx : List (String × TopicCtx))
    (sid : Option String) (inp : List Char) :
    rewriteQuery none ctx sid inp = (simpleKeywordExtraction inp, ctx) ∧
    rewriteQuery (some .failure) ctx sid inp = (simpleKeywordExtraction inp, ctx) ∧
    rewriteQuery (some .noJson) ctx sid inp = (simpleKeywordExtraction inp, ctx) :=
  ⟨rfl, rfl, rfl⟩

/-- C8: the per-session topic context is left unchanged on every fallback
path (no capability, capability/JSON failure, no JSON object, or no
session id), and on a successful parse it is overwritten — not merged —
with the parsed `main_topic` and `entities`, so reading it back yields
exactly the new record whatever was stored before. -/
theorem claim_C8_topic_context (ctx : List (String × TopicCtx)) (sid : String)
    (inp : List Char) (mt : Option String) (ents : Option (List String))
    (qs : Option (List (List Char))) (hsid : sid ≠ "") :
    ((rewriteQuery none ctx (some sid) inp).2 = ctx) ∧
    ((rewriteQuery (some .failure) ctx (some sid) inp).2 = ctx) ∧
    ((rewriteQuery (some .noJson) ctx (some sid) inp).2 = ctx) ∧
    ((rewriteQuery (some (.ok mt ents qs)) ctx none inp).2 = ctx) ∧
    ((rewriteQuery (some (.ok mt ents qs)) ctx (some sid) inp).2
      = aset sid ⟨mt, ents.getD []⟩ ctx) ∧
    (aget sid (rewriteQuery (some (.ok mt ents qs)) ctx (some sid) inp).2
      = some ⟨mt, ents.getD []⟩) := by
  refine ⟨rfl, rfl, rfl, rfl, ?_, ?_⟩
  · simp [rewriteQuery, hsid]
  · simp [rewriteQuery, hsid, aget_aset_self]

/-- C8 witness: a successful parse overwrites the stored topic for session
`"sess"`, while a failing capability call leaves the (empty) context
unchanged. -/
theorem claim_C8_topic_context_witness :
    ((rewriteQuery (some (.ok (some "son 2K") (some ["ngoai troi"])
        (some [String.toList "son 2k"]))) [] (some "sess") (String.toList "hi")).2
      = aset "sess" ⟨some "son 2K", ["ngoai troi"]⟩ []) ∧
    ((rewriteQuery (some .failure) [] (some "sess") (String.toList "hi")).2 = []) := by
  have h := claim_C8_topic_context [] "sess" (String.toList "hi") (some "son 2K")
    (some ["ngoai troi"]) (some [String.toList "son 2k"]) (by decide)
  exact ⟨h.2.2.2.2.1, h.2.1⟩

/-- C3 witness: a real utterance goes through the rule-based path and
yields at least one sub-query. -/
theorem claim_C3_expand_nonempty_witness :
    1 ≤ (simpleKeywordExtraction (String.toList "son 2k gia bao nhieu")).length ∧
    (rewriteQuery none [] none (String.toList "son 2k gia bao nhieu")).1
      = simpleKeywordExtraction (String.toList "son 2k gia bao nhieu") := by
  have h := claim_C3_expand_nonempty
  exact ⟨h.1 _, (h.2.1 [] none _).1⟩

/-- C4 witness: the empty-corpus case returns empty, while the empty-query
case returns one hit on a one-document corpus and a non-empty product
result on a one-product cache. -/
theorem claim_C4_empty_cases_witness :
    searchInDocuments [] (String.toList "son") 5 = [] ∧
    (searchInDocuments [⟨"d", "d.txt", "text", ['h', 'i']⟩] [] 5).length
      = min 5 [(⟨"d", "d.txt", "text", ['h', 'i']⟩ : Doc)].length ∧
    searchProducts [⟨"p", ['h', 'i']⟩] [] 5 ≠ [] := by
  have h := claim_C4_empty_cases (String.toList "son") 5
  exact ⟨h.1.1, h.2.1 _, h.2.2 _ _⟩

/-- C6 witness: a failing capability call falls back to the rule-based
extraction without touching the context. -/
theorem claim_C6_error_fallback_witness :
    rewriteQuery (some .failure) [] (some "s") (String.toList "son 2k")
      = (simpleKeywordExtraction (String.toList "son 2k"), []) :=
  (claim_C6_error_fallback [] (some "s") (String.toList "son 2k")).2.1

/-- C7 witness: two sub-queries that both match the same document yield
that document once, with the hit produced by the earlier sub-query. -/
theorem claim_C7_gather_dedup_witness :
    ((smartSearchDocs [⟨"d1", "d1.txt", "text", ['a', 'b']⟩] [['a'], ['b']] 5).map
        (fun h => h.filename)).Nodup ∧
    (∀ h ∈ smartSearchDocs [⟨"d1", "d1.txt", "text", ['a', 'b']⟩] [['a'], ['b']] 5,
      ([['a'], ['b']].flatMap fun q2 =>
          searchInDocuments [⟨"d1", "d1.txt", "text", ['a', 'b']⟩] q2 2).find?
        (fun y => y.filename == h.filename) = some h) := by
  have h := claim_C7_gather_dedup [⟨"d1", "d1.txt", "text", ['a', 'b']⟩] []
    [['a'], ['b']] 5
  exact ⟨h.1, h.2.1⟩

end N8n
